import Mathlib

/-!
Verification development for the HubSpot analytics data platform
(CDK stack, Athena SQL views, and the incremental ingestion engine).

SQL NULL is modelled with `Option`; SQL three-valued conditions that are
"unknown" behave as false in `CASE WHEN`, which the embedding mirrors by
evaluating the optional computation and defaulting to `false`.
-/

/-- ASCII upper-casing of one character, as a code point.  (Strings are
handled as code-point lists so that everything reduces structurally.) -/
def upperChar (c : Char) : Nat :=
  if 97 ≤ c.toNat ∧ c.toNat ≤ 122 then c.toNat - 32 else c.toNat

/-- ASCII lower-casing of one character, as a code point. -/
def lowerChar (c : Char) : Nat :=
  if 65 ≤ c.toNat ∧ c.toNat ≤ 90 then c.toNat + 32 else c.toNat

/-- The code points of `s` after SQL `UPPER`. -/
def upperCodes (s : String) : List Nat := s.data.map upperChar

/-- The code points of `s` after SQL `LOWER`. -/
def lowerCodes (s : String) : List Nat := s.data.map lowerChar

/-- The code points of `s` unchanged. -/
def codes (s : String) : List Nat := s.data.map Char.toNat

/-- Substring occurrence over code-point lists: `pat` occurs somewhere in the
second list.  Models SQL `x LIKE '%pat%'`. -/
def subOccurs (pat : List Nat) : List Nat → Bool
  | [] => pat.isEmpty
  | c :: rest => pat.isPrefixOf (c :: rest) || subOccurs pat rest

/-- SQL `UPPER(x) = 'S'` where `x` is nullable: NULL compares unknown (false). -/
def upperEq (x : Option String) (s : String) : Bool :=
  match x with
  | some v => upperCodes v == codes s
  | none => false

/-- SQL `UPPER(x) IN (list)` where `x` is nullable. -/
def upperMem (x : Option String) (ss : List String) : Bool :=
  match x with
  | some v => ss.any (fun s => upperCodes v == codes s)
  | none => false

/-- SQL `LOWER(COALESCE(x, '')) LIKE '%kw%'` (keyword already lowercase). -/
def likeKw (x : Option String) (kw : String) : Bool :=
  subOccurs (codes kw) (lowerCodes (x.getD ""))

/-- SQL string concatenation `a || b` where either side may be NULL:
NULL propagates. -/
def optConcat (a b : Option String) : Option String :=
  match a, b with
  | some x, some y => some (x ++ y)
  | _, _ => none

/-- One row of the `hubspot_datalake.activities` table, restricted to the
columns the classification `CASE` expression reads.  All of them are
nullable in the lake, hence `Option`. -/
structure ActivityRow where
  activity_type : Option String
  email_direction : Option String
  email_sent : Option Bool
  note_subject : Option String
  note_body : Option String
  communication_body : Option String
  communication_source : Option String
deriving DecidableEq, Repr

/-- SQL `UPPER(COALESCE(email_direction, '')) IN (...) OR
LOWER(CAST(email_sent AS varchar)) = 'false'` from the EMAIL-family branch. -/
def emailReplyCond (ed : Option String) (es : Option Bool) : Bool :=
  (["INCOMING_EMAIL", "INCOMING", "REPLY", "REPLIED"].any
      fun s => upperCodes (ed.getD "") == codes s) ||
    ((es.map fun b => if b then "true" else "false") == some "false")

/-- The `activity_category` CASE expression of
`activity_volume_by_owner_type_last3weeks_v2` (src/unnamed/part_004),
transliterated branch for branch. -/
def activity_category (a : ActivityRow) : String :=
  if upperEq a.activity_type "CALL" then "Call"
  else if upperMem a.activity_type
      ["EMAIL", "EMAIL_SENT", "OUTBOUND_EMAIL", "FORWARDED_EMAIL"] then
    (if emailReplyCond a.email_direction a.email_sent then
      "Email reply from contact"
    else "Email sent to contact")
  else if upperEq a.activity_type "INCOMING_EMAIL" then "Email reply from contact"
  else if upperMem a.activity_type ["LINKEDIN_MESSAGE", "LINKEDIN"] then
    "LinkedIn Message"
  else if upperMem a.activity_type ["SMS", "TEXT", "TEXT_MESSAGE"] then "SMS"
  else if upperMem a.activity_type
      ["WHATS_APP", "WHATSAPP", "WHATS-APP", "WHATS APP"] then "WhatsApp"
  else if upperEq a.activity_type "MEETING" then "Meeting"
  else if upperEq a.activity_type "TASK" then "Task"
  else if upperEq a.activity_type "NOTE" then
    (if likeKw a.note_subject "linkedin" || likeKw a.note_body "linkedin" ||
        likeKw a.communication_body "linkedin" then "LinkedIn Message"
    else if likeKw a.note_subject "whatsapp" || likeKw a.note_body "whatsapp" ||
        likeKw a.communication_body "whatsapp" then "WhatsApp"
    else "Note")
  else
    (if likeKw a.communication_source "linkedin" then "LinkedIn Message"
    else if likeKw a.communication_source "whatsapp" then "WhatsApp"
    else a.activity_type.getD "Unknown")

/-- The NOTE-branch condition of
`activity_volume_by_owner_type_by_date_range` (src/sql), which concatenates
the nullable `note_body` and `communication_body` without COALESCE:
`LOWER(COALESCE(note_subject, '') || note_body || communication_body)
LIKE '%kw%'`.  A NULL in either field makes the whole condition unknown. -/
def noteBlobLike (ns nb cb : Option String) (kw : String) : Bool :=
  match optConcat (optConcat (some (ns.getD "")) nb) cb with
  | some s => subOccurs (codes kw) (lowerCodes s)
  | none => false

/-- The `activity_category` CASE expression of
`activity_volume_by_owner_type_by_date_range` (src/sql), transliterated.
It differs from `activity_category` only in the NOTE branch. -/
def activity_category_dr (a : ActivityRow) : String :=
  if upperEq a.activity_type "CALL" then "Call"
  else if upperMem a.activity_type
      ["EMAIL", "EMAIL_SENT", "OUTBOUND_EMAIL", "FORWARDED_EMAIL"] then
    (if emailReplyCond a.email_direction a.email_sent then
      "Email reply from contact"
    else "Email sent to contact")
  else if upperEq a.activity_type "INCOMING_EMAIL" then "Email reply from contact"
  else if upperMem a.activity_type ["LINKEDIN_MESSAGE", "LINKEDIN"] then
    "LinkedIn Message"
  else if upperMem a.activity_type ["SMS", "TEXT", "TEXT_MESSAGE"] then "SMS"
  else if upperMem a.activity_type
      ["WHATS_APP", "WHATSAPP", "WHATS-APP", "WHATS APP"] then "WhatsApp"
  else if upperEq a.activity_type "MEETING" then "Meeting"
  else if upperEq a.activity_type "TASK" then "Task"
  else if upperEq a.activity_type "NOTE" then
    (if noteBlobLike a.note_subject a.note_body a.communication_body "linkedin"
      then "LinkedIn Message"
    else if noteBlobLike a.note_subject a.note_body a.communication_body
        "whatsapp" then "WhatsApp"
    else "Note")
  else
    (if likeKw a.communication_source "linkedin" then "LinkedIn Message"
    else if likeKw a.communication_source "whatsapp" then "WhatsApp"
    else a.activity_type.getD "Unknown")

/-- Stage 1 of the classification precedence: the explicit type-code rules
(call / email family / incoming email / LinkedIn / SMS / WhatsApp / meeting /
task).  Reads only the type code and the email-direction fields. -/
def explicitTypeRule (t ed : Option String) (es : Option Bool) : Option String :=
  if upperEq t "CALL" then some "Call"
  else if upperMem t ["EMAIL", "EMAIL_SENT", "OUTBOUND_EMAIL", "FORWARDED_EMAIL"]
    then
    some (if emailReplyCond ed es then "Email reply from contact"
      else "Email sent to contact")
  else if upperEq t "INCOMING_EMAIL" then some "Email reply from contact"
  else if upperMem t ["LINKEDIN_MESSAGE", "LINKEDIN"] then some "LinkedIn Message"
  else if upperMem t ["SMS", "TEXT", "TEXT_MESSAGE"] then some "SMS"
  else if upperMem t ["WHATS_APP", "WHATSAPP", "WHATS-APP", "WHATS APP"] then
    some "WhatsApp"
  else if upperEq t "MEETING" then some "Meeting"
  else if upperEq t "TASK" then some "Task"
  else none

/-- Stage 2: the content-based keyword heuristic over note / communication
body text (the NOTE branch of the v2 view, each field COALESCEd). -/
def contentRule (t ns nb cb : Option String) : Option String :=
  if upperEq t "NOTE" then
    some (if likeKw ns "linkedin" || likeKw nb "linkedin" ||
        likeKw cb "linkedin" then "LinkedIn Message"
      else if likeKw ns "whatsapp" || likeKw nb "whatsapp" ||
        likeKw cb "whatsapp" then "WhatsApp"
      else "Note")
  else none

/-- Stage 2 as written in the date-range view (nullable concatenation). -/
def contentRuleDr (t ns nb cb : Option String) : Option String :=
  if upperEq t "NOTE" then
    some (if noteBlobLike ns nb cb "linkedin" then "LinkedIn Message"
      else if noteBlobLike ns nb cb "whatsapp" then "WhatsApp"
      else "Note")
  else none

/-- Stage 3: the communication-source heuristic. -/
def sourceRule (cs : Option String) : Option String :=
  if likeKw cs "linkedin" then some "LinkedIn Message"
  else if likeKw cs "whatsapp" then some "WhatsApp"
  else none

/-- Stage 4: the raw type string fallback (`COALESCE(activity_type, 'Unknown')`). -/
def rawTypeFallback (t : Option String) : String := t.getD "Unknown"

/-- The NOTE-branch result shape shared by both activity views. -/
def noteResult (nl nw : Bool) : String :=
  if nl then "LinkedIn Message" else if nw then "WhatsApp" else "Note"

/-- The common CASE skeleton of both activity views, abstracted over the two
NOTE-branch conditions (which is where the views differ). -/
def categorySkeleton (t ed : Option String) (es : Option Bool)
    (nl nw : Bool) (cs : Option String) : String :=
  if upperEq t "CALL" then "Call"
  else if upperMem t ["EMAIL", "EMAIL_SENT", "OUTBOUND_EMAIL", "FORWARDED_EMAIL"]
    then
    (if emailReplyCond ed es then "Email reply from contact"
    else "Email sent to contact")
  else if upperEq t "INCOMING_EMAIL" then "Email reply from contact"
  else if upperMem t ["LINKEDIN_MESSAGE", "LINKEDIN"] then "LinkedIn Message"
  else if upperMem t ["SMS", "TEXT", "TEXT_MESSAGE"] then "SMS"
  else if upperMem t ["WHATS_APP", "WHATSAPP", "WHATS-APP", "WHATS APP"] then
    "WhatsApp"
  else if upperEq t "MEETING" then "Meeting"
  else if upperEq t "TASK" then "Task"
  else if upperEq t "NOTE" then noteResult nl nw
  else
    (if likeKw cs "linkedin" then "LinkedIn Message"
    else if likeKw cs "whatsapp" then "WhatsApp"
    else t.getD "Unknown")

/-- A NOTE activity whose subject mentions LinkedIn but whose `note_body` and
`communication_body` are NULL. -/
def nullNoteRow : ActivityRow :=
  { activity_type := some "NOTE", email_direction := none, email_sent := none,
    note_subject := some "sent via linkedin", note_body := none,
    communication_body := none, communication_source := none }

section DedupGeneric

variable {α : Type} (f : α → String)

/-- The distinct key values of `l` under `f`, in order of first occurrence. -/
def keyList (l : List α) : List String :=
  l.foldl (fun ks r => if f r ∈ ks then ks else ks ++ [f r]) []

/-- The rows of `l` whose key is `k` (SQL `PARTITION BY` group). -/
def rowsBy (k : String) (l : List α) : List α :=
  l.filter fun r => f r == k

/-- Keep one chosen row per key group; the shape shared by the SQL
`ROW_NUMBER ... WHERE rn = 1` views and the merge-dedup writer. -/
def dedupByKey (choose : List α → Option α) (l : List α) : List α :=
  (keyList f l).filterMap fun k => choose (rowsBy f k l)

end DedupGeneric

/-- One normalized record as seen by the merge-dedup writer: a primary key,
the entity's designated last-modified timestamp, a date partition key, and
the remaining columns abstracted as a payload. -/
structure Rec where
  pk : String
  modified : Int
  dt : String
  payload : String
deriving DecidableEq, Repr

/-- One fold step keeping the better row: later `modified` wins, an exact
`modified` tie falls to the lexically greater primary key, and a full tie
keeps the earlier row. -/
def pickStep (acc : Option Rec) (r : Rec) : Option Rec :=
  match acc with
  | none => some r
  | some b =>
    if b.modified < r.modified ∨ (b.modified = r.modified ∧ b.pk < r.pk) then
      some r
    else some b

/-- The row the merge-dedup writer keeps out of one primary-key group. -/
def pickBest (l : List Rec) : Option Rec := l.foldl pickStep none

/-- Modelled from the spec: the per-partition merge-dedup of
`write_with_merge_strategy` (the Python `SyncStateManager` method is not in
the sources; §4.5 of the spec describes it): concatenate existing and
incoming rows, then keep per primary key the row with the latest
last-modified value, ties broken deterministically. -/
def mergeDedup (existing incoming : List Rec) : List Rec :=
  dedupByKey Rec.pk pickBest (existing ++ incoming)

/-- Modelled from the spec: `write_with_merge_strategy` groups incoming rows
by partition key and read-modify-writes only the affected partitions. -/
def writeWithMerge (store : String → List Rec) (rows : List Rec) :
    String → List Rec :=
  fun d =>
    let incoming := rows.filter fun r => r.dt == d
    if incoming.isEmpty then store d else mergeDedup (store d) incoming

/-- One row of `hubspot_datalake.deals`, restricted to the columns the
`deals_latest` ranking reads plus a representative payload column. -/
structure DealRow where
  deal_id : String
  deal_name : String
  created_at : Int
  last_modified_at : Option Int
deriving DecidableEq, Repr

/-- One fold step of `ROW_NUMBER() OVER (... ORDER BY key DESC) ... rn = 1`:
a strictly greater key replaces the current row, ties keep the earlier row. -/
def topStep (key : DealRow → Int) (acc : Option DealRow) (r : DealRow) :
    Option DealRow :=
  match acc with
  | none => some r
  | some b => if key b < key r then some r else some b

/-- The row with rank 1 under `ORDER BY key DESC` within one group. -/
def pickTop (key : DealRow → Int) (l : List DealRow) : Option DealRow :=
  l.foldl (topStep key) none

/-- `hubspot_datalake.deals_latest` as defined in
src/sql/create_view_deals_latest.sql: per `deal_id` the row ranked first by
`ORDER BY created_at DESC`. -/
def deals_latest (tbl : List DealRow) : List DealRow :=
  dedupByKey DealRow.deal_id (pickTop fun r => r.created_at) tbl

/-- `hubspot_datalake.deals_latest` as defined in src/unnamed/part_002: per
`deal_id` the row ranked first by
`ORDER BY COALESCE(last_modified_at, created_at) DESC`. -/
def deals_latest_alt (tbl : List DealRow) : List DealRow :=
  dedupByKey DealRow.deal_id
    (pickTop fun r => r.last_modified_at.getD r.created_at) tbl

/-- Concrete two-row deals table: both rows share `deal_id` "D1"; `dealA` was
created later but modified earlier than `dealB`. -/
def dealA : DealRow :=
  { deal_id := "D1", deal_name := "a", created_at := 2,
    last_modified_at := some 1 }

/-- See `dealA`. -/
def dealB : DealRow :=
  { deal_id := "D1", deal_name := "b", created_at := 1,
    last_modified_at := some 3 }

/-- The two-row table `[dealA, dealB]`. -/
def dealTbl : List DealRow := [dealA, dealB]

/-- The per-entity-type sync state stored in the `hubspot-sync-state`
DynamoDB table (fields per docs and §3 of the spec). -/
structure Watermark where
  last_sync_at : Int
  last_created_at : Int
  last_modified_at : Int
  records_processed : Nat
deriving DecidableEq, Repr

/-- A fetch window `[fromTs, toTs]` in epoch seconds. -/
structure FetchWindow where
  fromTs : Int
  toTs : Int
deriving DecidableEq, Repr

/-- The 2-hour overlap buffer, in seconds. -/
def overlapBufferSeconds : Int := 2 * 60 * 60

/-- Modelled from the spec: `getWindow` of the Watermark Manager (the Python
implementation is not in the sources; §4.4 of the spec and the incremental
sync doc describe it): with a watermark, start from the more recent of
`last_created_at` / `last_modified_at` minus the overlap buffer; without one,
start from the configured start date. -/
def getWindow (wm : Option Watermark) (configuredStart now : Int) :
    FetchWindow :=
  match wm with
  | some w =>
    { fromTs := max w.last_created_at w.last_modified_at - overlapBufferSeconds,
      toTs := now }
  | none => { fromTs := configuredStart, toTs := now }

/-- Gregorian leap-year test. -/
def leapYear (y : Nat) : Bool := y % 4 == 0 && (y % 100 != 0 || y % 400 == 0)

/-- Days in a Gregorian year. -/
def daysInYear (y : Nat) : Nat := if leapYear y then 366 else 365

/-- Month lengths of year `y`. -/
def monthLengths (y : Nat) : List Nat :=
  [31, if leapYear y then 29 else 28, 31, 30, 31, 30, 31, 31, 30, 31, 30, 31]

/-- Days from 1970-01-01 to the start of year `y`. -/
def daysBeforeYear (y : Nat) : Nat :=
  ((List.range (y - 1970)).map fun i => daysInYear (1970 + i)).sum

/-- Days from the start of year `y` to the start of its month `m`. -/
def daysBeforeMonth (y m : Nat) : Nat := ((monthLengths y).take (m - 1)).sum

/-- Epoch seconds of the UTC instant `y-m-d h:00:00`. -/
def epochSeconds (y m d h : Nat) : Int :=
  ((daysBeforeYear y + daysBeforeMonth y m + (d - 1)) * 86400 + h * 3600 : Nat)

/-- Outcome of one ingestion run. -/
inductive RunResult
  | success
  | failure
deriving DecidableEq, Repr

/-- The externally determined events of one ingestion run: whether the sync
state could be read, whether every affected partition was written
successfully, whether the sync-state update succeeded, and what maxima the
processed data exhibited. -/
structure RunInput where
  readOk : Bool
  writerOk : Bool
  commitOk : Bool
  observedMaxCreated : Int
  observedMaxModified : Int
  recordCount : Nat
  now : Int
deriving DecidableEq, Repr

/-- Modelled from the spec: `commit` of the Watermark Manager (§4.4): a
single atomic replace of the whole record with the observed maxima, only
ever advancing the watermark forward. -/
def commitWatermark (old : Option Watermark) (inp : RunInput) : Watermark :=
  match old with
  | none =>
    { last_sync_at := inp.now, last_created_at := inp.observedMaxCreated,
      last_modified_at := inp.observedMaxModified,
      records_processed := inp.recordCount }
  | some w =>
    { last_sync_at := max w.last_sync_at inp.now,
      last_created_at := max w.last_created_at inp.observedMaxCreated,
      last_modified_at := max w.last_modified_at inp.observedMaxModified,
      records_processed := inp.recordCount }

/-- Modelled from the spec: one ingestion run (§4.4, §7 and the incremental
sync doc): a sync-state read error falls back to a full-window fetch; the
watermark is committed only after the writer reports success; a failed
sync-state update is logged and ignored, the run still succeeds; a writer
failure aborts before commit. -/
def runIngestion (wm : Option Watermark) (configuredStart : Int)
    (inp : RunInput) : FetchWindow × Option Watermark × RunResult :=
  let readWm := if inp.readOk then wm else none
  let window := getWindow readWm configuredStart inp.now
  if inp.writerOk then
    (window, if inp.commitOk then some (commitWatermark wm inp) else wm,
      RunResult.success)
  else (window, wm, RunResult.failure)

/-- Pointwise order on watermarks: every timestamp advanced or unchanged. -/
def wmLe (a b : Watermark) : Prop :=
  a.last_sync_at ≤ b.last_sync_at ∧ a.last_created_at ≤ b.last_created_at ∧
    a.last_modified_at ≤ b.last_modified_at

/-- Base backoff delay (milliseconds). -/
def baseDelayMs : Nat := 1000

/-- Exponential backoff factor. -/
def backoffFactor : Nat := 2

/-- Backoff cap (milliseconds). -/
def backoffCapMs : Nat := 30000

/-- Bounded retry count. -/
def maxRetryCount : Nat := 5

/-- Delay before retrying after failed attempt `k`. -/
def delayForAttempt (k : Nat) : Nat :=
  min (baseDelayMs * backoffFactor ^ k) backoffCapMs

/-- Modelled from the spec: the fetcher retry loop (§4.2; the sources only
document "built-in backoff and rate-limit handling").  `respond k = true`
means attempt `k` succeeds; a 429 or transient error waits the exponential
delay plus jitter and retries, up to `r` remaining retries.  Returns the
total wait in milliseconds and whether the fetch succeeded. -/
def retryLoop (respond : Nat → Bool) (jitter : Nat → Nat) :
    Nat → Nat → Nat × Bool
  | k, 0 => if respond k then (0, true) else (0, false)
  | k, r + 1 =>
    if respond k then (0, true)
    else
      let p := retryLoop respond jitter (k + 1) r
      (delayForAttempt k + jitter k + p.1, p.2)

/-- One window fetch with the default retry budget. -/
def fetchWindowRun (respond : Nat → Bool) (jitter : Nat → Nat) : Nat × Bool :=
  retryLoop respond jitter 0 maxRetryCount

/-- Modelled from the spec: a window fetch followed by the merge write; when
retries are exhausted the error propagates and no partition is mutated. -/
def runFetchMerge (respond : Nat → Bool) (jitter : Nat → Nat)
    (store : String → List Rec) (rows : List Rec) :
    (String → List Rec) × RunResult :=
  if (fetchWindowRun respond jitter).2 then
    (writeWithMerge store rows, RunResult.success)
  else (store, RunResult.failure)

/-- An SSM string parameter as declared by the CDK stack. -/
structure StringParameter where
  parameterName : String
  stringValue : String
  description : String
deriving DecidableEq, Repr

/-- The `IncrementalSyncEnabled` parameter exactly as deployed by
src/lib/hubspot-analytics-stack.ts. -/
def incrementalSyncParameter : StringParameter :=
  { parameterName := "/hubspot-analytics/incremental-sync-enabled",
    stringValue := "false",
    description :=
      "Enable or disable incremental sync for HubSpot data ingestion" }

/-- The entity types the ingestion handlers sync incrementally. -/
inductive EntityType
  | deals
  | activities
  | contacts
  | companies
  | contacts_dim
deriving DecidableEq, Repr

/-- Modelled from the spec: parsing of the incremental-sync toggle (the
incremental sync doc lists the accepted enabling values; anything else,
including `false`, disables). -/
def parseSyncFlag (v : String) : Bool :=
  ["true", "1", "yes", "enabled"].contains v

/-- The two write modes of the ingestion functions. -/
inductive WriteMode
  | overwritePartitions
  | mergeStrategy
deriving DecidableEq, Repr

/-- Modelled from the spec: write-mode dispatch (incremental sync doc):
incremental sync disabled, or no previous sync state, means a full sync with
`overwrite_partitions`; otherwise the merge strategy. -/
def writeStrategy (incrementalEnabled : Bool) (et : EntityType)
    (wm : Option Watermark) : WriteMode :=
  if incrementalEnabled then
    match wm with
    | some _ => WriteMode.mergeStrategy
    | none => WriteMode.overwritePartitions
  else WriteMode.overwritePartitions

/-- Hypotheses on a per-group chooser: it returns a member of the group, and a
nonempty group always yields a choice. -/
def ChooserOk {α : Type} (choose : List α → Option α) : Prop :=
  (∀ m r, choose m = some r → r ∈ m) ∧
    ∀ (x : α) (m : List α), (choose (x :: m)).isSome

/-- A deal row with no `last_modified_at`. -/
def dealC : DealRow :=
  { deal_id := "D2", deal_name := "c", created_at := 5,
    last_modified_at := none }

/-- The watermark of the spec scenario: `last_modified_at` is
2025-06-01T00:00:00Z. -/
def scenarioWm : Watermark :=
  { last_sync_at := 0, last_created_at := epochSeconds 2025 1 1 0,
    last_modified_at := epochSeconds 2025 6 1 0, records_processed := 0 }

/-!
Theorems.  First the generic machinery about `keyList` / `rowsBy` /
`dedupByKey`, then the properties of the two concrete group choosers, then
one theorem per specification claim.
-/

section DedupLemmas

variable {α : Type} (f : α → String)

theorem keyStep_mem (l : List α) (acc : List String) (k : String) :
    (k ∈ l.foldl (fun ks r => if f r ∈ ks then ks else ks ++ [f r]) acc) ↔
      k ∈ acc ∨ ∃ r ∈ l, f r = k := by
  induction l generalizing acc with
  | nil => simp
  | cons x xs ih =>
    simp only [List.foldl_cons]
    by_cases hx : f x ∈ acc
    · rw [if_pos hx, ih]
      constructor
      · rintro (h | ⟨r, hr, hrk⟩)
        · exact Or.inl h
        · exact Or.inr ⟨r, List.mem_cons_of_mem x hr, hrk⟩
      · rintro (h | ⟨r, hr, hrk⟩)
        · exact Or.inl h
        · rcases List.mem_cons.mp hr with rfl | hr
          · exact Or.inl (hrk ▸ hx)
          · exact Or.inr ⟨r, hr, hrk⟩
    · rw [if_neg hx, ih]
      simp only [List.mem_append, List.mem_singleton]
      constructor
      · rintro ((h | h) | ⟨r, hr, hrk⟩)
        · exact Or.inl h
        · exact Or.inr ⟨x, List.mem_cons_self x xs, h.symm⟩
        · exact Or.inr ⟨r, List.mem_cons_of_mem x hr, hrk⟩
      · rintro (h | ⟨r, hr, hrk⟩)
        · exact Or.inl (Or.inl h)
        · rcases List.mem_cons.mp hr with rfl | hr
          · exact Or.inl (Or.inr hrk.symm)
          · exact Or.inr ⟨r, hr, hrk⟩

theorem mem_keyList (l : List α) (k : String) :
    k ∈ keyList f l ↔ ∃ r ∈ l, f r = k := by
  rw [keyList, keyStep_mem]
  simp

theorem keyStep_nodup (l : List α) (acc : List String) (h : acc.Nodup) :
    (l.foldl (fun ks r => if f r ∈ ks then ks else ks ++ [f r]) acc).Nodup := by
  induction l generalizing acc with
  | nil => exact h
  | cons x xs ih =>
    simp only [List.foldl_cons]
    by_cases hx : f x ∈ acc
    · rw [if_pos hx]; exact ih acc h
    · rw [if_neg hx]
      refine ih _ ?_
      simp [List.nodup_append, h, hx]

theorem keyList_nodup (l : List α) : (keyList f l).Nodup :=
  keyStep_nodup f l [] List.nodup_nil

theorem keyStep_absorb (l : List α) (acc : List String)
    (h : ∀ r ∈ l, f r ∈ acc) :
    l.foldl (fun ks r => if f r ∈ ks then ks else ks ++ [f r]) acc = acc := by
  induction l generalizing acc with
  | nil => rfl
  | cons x xs ih =>
    simp only [List.foldl_cons]
    rw [if_pos (h x (List.mem_cons_self x xs))]
    exact ih acc fun r hr => h r (List.mem_cons_of_mem x hr)

theorem keyList_append_absorb (l l' : List α)
    (h : ∀ r ∈ l', f r ∈ keyList f l) :
    keyList f (l ++ l') = keyList f l := by
  rw [keyList, List.foldl_append]
  exact keyStep_absorb f l' _ h

theorem filterMap_congr_on {β : Type} (ks : List β) (g h : β → Option α)
    (he : ∀ k ∈ ks, g k = h k) : ks.filterMap g = ks.filterMap h := by
  induction ks with
  | nil => rfl
  | cons x xs ih =>
    simp only [List.filterMap_cons,
      he x (List.mem_cons_self x xs),
      ih fun k hk => he k (List.mem_cons_of_mem x hk)]

theorem map_f_filterMap (ks : List String) (g : String → Option α)
    (h : ∀ k ∈ ks, ∃ r, g k = some r ∧ f r = k) :
    List.map f (ks.filterMap g) = ks := by
  induction ks with
  | nil => rfl
  | cons x xs ih =>
    obtain ⟨r, hr, hrk⟩ := h x (List.mem_cons_self x xs)
    simp only [List.filterMap_cons, hr, List.map_cons, hrk]
    rw [ih fun k hk => h k (List.mem_cons_of_mem x hk)]

theorem keyStep_of_map_nodup (m : List α) (acc : List String)
    (h : (acc ++ List.map f m).Nodup) :
    m.foldl (fun ks r => if f r ∈ ks then ks else ks ++ [f r]) acc =
      acc ++ List.map f m := by
  induction m generalizing acc with
  | nil => simp
  | cons x xs ih =>
    simp only [List.map_cons] at h
    have hx : f x ∉ acc := by
      intro hmem
      exact (List.nodup_append.mp h).2.2 hmem (List.mem_cons_self _ _)
    simp only [List.foldl_cons, if_neg hx]
    have h' : ((acc ++ [f x]) ++ List.map f xs).Nodup := by
      simpa [List.append_assoc] using h
    rw [ih _ h']
    simp

theorem keyList_of_map_nodup (m : List α) (h : (List.map f m).Nodup) :
    keyList f m = List.map f m := by
  have := keyStep_of_map_nodup f m [] (by simpa using h)
  simpa [keyList] using this

theorem mem_rowsBy (k : String) (l : List α) (r : α) :
    r ∈ rowsBy f k l ↔ r ∈ l ∧ f r = k := by
  simp [rowsBy, List.mem_filter]

theorem rowsBy_append (k : String) (l l' : List α) :
    rowsBy f k (l ++ l') = rowsBy f k l ++ rowsBy f k l' := by
  simp [rowsBy, List.filter_append]

theorem rowsBy_filterMap_single (ks : List String) (g : String → Option α)
    (hnd : ks.Nodup) (hg : ∀ k ∈ ks, ∃ r, g k = some r ∧ f r = k)
    (k : String) (r : α) (hk : k ∈ ks) (hr : g k = some r) :
    rowsBy f k (ks.filterMap g) = [r] := by
  induction ks with
  | nil => cases hk
  | cons x xs ih =>
    obtain ⟨rx, hrx, hrxk⟩ := hg x (List.mem_cons_self x xs)
    rcases List.mem_cons.mp hk with rfl | hk2
    · rw [hr] at hrx
      cases hrx
      have hnil : List.filter (fun a => f a == k) (xs.filterMap g) = [] := by
        rw [List.filter_eq_nil_iff]
        intro a ha
        obtain ⟨k2, hk2, hgk2⟩ := List.mem_filterMap.mp ha
        obtain ⟨r2, hr2, hr2k⟩ := hg k2 (List.mem_cons_of_mem _ hk2)
        rw [hr2] at hgk2
        cases hgk2
        have hkk : ¬k2 = k := fun h2 => (List.nodup_cons.mp hnd).1 (h2 ▸ hk2)
        simp only [hr2k, beq_iff_eq]
        exact hkk
      simp only [List.filterMap_cons, hr, rowsBy, List.filter_cons]
      rw [if_pos (by simp [hrxk]), hnil]
    · have hne : ¬f rx = k := by
        rw [hrxk]
        intro h2
        exact (List.nodup_cons.mp hnd).1 (h2 ▸ hk2)
      simp only [List.filterMap_cons, hrx, rowsBy, List.filter_cons]
      rw [if_neg (by simp [hne])]
      exact ih (List.nodup_cons.mp hnd).2
        (fun k2 hk3 => hg k2 (List.mem_cons_of_mem x hk3)) hk2

end DedupLemmas
section ChooseLemmas

variable {α : Type} (f : α → String) (choose : List α → Option α)

theorem chooser_at_key (hc : ChooserOk choose) (l : List α) (k : String)
    (hk : k ∈ keyList f l) :
    ∃ r, choose (rowsBy f k l) = some r ∧ f r = k := by
  obtain ⟨s, hs, hsk⟩ := (mem_keyList f l k).mp hk
  have hsmem : s ∈ rowsBy f k l := (mem_rowsBy f k l s).mpr ⟨hs, hsk⟩
  obtain ⟨x, m, hxm⟩ : ∃ x m, rowsBy f k l = x :: m := by
    cases h : rowsBy f k l with
    | nil => rw [h] at hsmem; cases hsmem
    | cons x m => exact ⟨x, m, rfl⟩
  have : (choose (rowsBy f k l)).isSome := by rw [hxm]; exact hc.2 x m
  obtain ⟨r, hr⟩ := Option.isSome_iff_exists.mp this
  refine ⟨r, hr, ?_⟩
  exact ((mem_rowsBy f k l r).mp (hc.1 _ r hr)).2

theorem map_f_dedup (hc : ChooserOk choose) (l : List α) :
    List.map f (dedupByKey f choose l) = keyList f l :=
  map_f_filterMap f _ _ fun k hk => chooser_at_key f choose hc l k hk

theorem dedup_mem_sub (hc : ChooserOk choose) (l : List α) (r : α)
    (h : r ∈ dedupByKey f choose l) : r ∈ l := by
  obtain ⟨k, _, hgk⟩ := List.mem_filterMap.mp h
  exact ((mem_rowsBy f k l r).mp (hc.1 _ r hgk)).1

theorem dedup_picks (hc : ChooserOk choose) (l : List α) (r : α)
    (h : r ∈ dedupByKey f choose l) :
    choose (rowsBy f (f r) l) = some r := by
  obtain ⟨k, _, hgk⟩ := List.mem_filterMap.mp h
  have : f r = k := ((mem_rowsBy f k l r).mp (hc.1 _ r hgk)).2
  rw [this]
  exact hgk

theorem dedup_covers (hc : ChooserOk choose) (l : List α) (s : α)
    (hs : s ∈ l) : ∃ r ∈ dedupByKey f choose l, f r = f s := by
  have hk : f s ∈ keyList f l := (mem_keyList f l (f s)).mpr ⟨s, hs, rfl⟩
  obtain ⟨r, hr, hrk⟩ := chooser_at_key f choose hc l (f s) hk
  exact ⟨r, List.mem_filterMap.mpr ⟨f s, hk, hr⟩, hrk⟩

theorem dedup_stable (hc : ChooserOk choose)
    (hkeep : ∀ (k : String) (m : List α) (r : α) (ex : List α),
      (∀ x ∈ m, f x = k) → choose m = some r → (∀ x ∈ ex, x ∈ m) →
      choose (r :: ex) = some r)
    (l extra : List α) (hextra : ∀ x ∈ extra, x ∈ l) :
    dedupByKey f choose (dedupByKey f choose l ++ extra) =
      dedupByKey f choose l := by
  have h1 : keyList f (dedupByKey f choose l) = keyList f l := by
    rw [keyList_of_map_nodup f _
      (by rw [map_f_dedup f choose hc]; exact keyList_nodup f l)]
    exact map_f_dedup f choose hc l
  have hkeys : keyList f (dedupByKey f choose l ++ extra) = keyList f l := by
    have h2 : ∀ r ∈ extra, f r ∈ keyList f (dedupByKey f choose l) := by
      intro r hr
      rw [h1]
      exact (mem_keyList f l (f r)).mpr ⟨r, hextra r hr, rfl⟩
    rw [keyList_append_absorb f _ _ h2, h1]
  rw [dedupByKey, hkeys]
  refine filterMap_congr_on _ _ _ ?_
  intro k hk
  obtain ⟨r, hr, hrk⟩ := chooser_at_key f choose hc l k hk
  have hsingle : rowsBy f k (dedupByKey f choose l) = [r] :=
    rowsBy_filterMap_single f (keyList f l) _ (keyList_nodup f l)
      (fun k2 hk2 => chooser_at_key f choose hc l k2 hk2) k r hk hr
  rw [rowsBy_append, hsingle]
  have hsub : ∀ x ∈ rowsBy f k extra, x ∈ rowsBy f k l := by
    intro x hx
    obtain ⟨hx1, hx2⟩ := (mem_rowsBy f k extra x).mp hx
    exact (mem_rowsBy f k l x).mpr ⟨hextra x hx1, hx2⟩
  have hkept := hkeep k (rowsBy f k l) r (rowsBy f k extra)
    (fun x hx => ((mem_rowsBy f k l x).mp hx).2) hr hsub
  rw [List.singleton_append, hkept, hr]

end ChooseLemmas

theorem pickFold_mem (l : List Rec) (acc : Option Rec) (r : Rec)
    (h : l.foldl pickStep acc = some r) : acc = some r ∨ r ∈ l := by
  induction l generalizing acc with
  | nil => exact Or.inl h
  | cons x xs ih =>
    simp only [List.foldl_cons] at h
    rcases ih (pickStep acc x) h with h2 | h2
    · cases acc with
      | none =>
        simp only [pickStep] at h2
        cases h2
        exact Or.inr (List.mem_cons_self _ _)
      | some b =>
        simp only [pickStep] at h2
        split at h2
        · cases h2; exact Or.inr (List.mem_cons_self _ _)
        · exact Or.inl h2
    · exact Or.inr (List.mem_cons_of_mem x h2)

theorem pickFold_isSome (l : List Rec) (b : Rec) :
    (l.foldl pickStep (some b)).isSome := by
  induction l generalizing b with
  | nil => rfl
  | cons x xs ih =>
    simp only [List.foldl_cons, pickStep]
    split
    · exact ih x
    · exact ih b

theorem pickBest_chooserOk : ChooserOk (α := Rec) pickBest := by
  constructor
  · intro m r h
    rcases pickFold_mem m none r h with h2 | h2
    · cases h2
    · exact h2
  · intro x m
    simp only [pickBest, List.foldl_cons, pickStep]
    exact pickFold_isSome m x

theorem pickFold_bound (k : String) (l : List Rec) (b : Rec)
    (hl : ∀ x ∈ l, x.pk = k) (hb : b.pk = k) :
    ∃ r, l.foldl pickStep (some b) = some r ∧ r.pk = k ∧
      b.modified ≤ r.modified ∧ ∀ x ∈ l, x.modified ≤ r.modified := by
  induction l generalizing b with
  | nil => exact ⟨b, rfl, hb, le_refl _, by simp⟩
  | cons x xs ih =>
    have hx : x.pk = k := hl x (List.mem_cons_self x xs)
    have hxs : ∀ y ∈ xs, y.pk = k := fun y hy => hl y (List.mem_cons_of_mem x hy)
    simp only [List.foldl_cons, pickStep]
    split
    case isTrue hcond =>
      obtain ⟨r, hr, hrk, hbr, hall⟩ := ih x hxs hx
      refine ⟨r, hr, hrk, ?_, ?_⟩
      · rcases hcond with h | ⟨h, _⟩
        · exact le_trans (le_of_lt h) hbr
        · exact le_trans (le_of_eq h) hbr
      · intro y hy
        rcases List.mem_cons.mp hy with rfl | hy2
        · exact hbr
        · exact hall y hy2
    case isFalse hcond =>
      obtain ⟨r, hr, hrk, hbr, hall⟩ := ih b hxs hb
      have hxb : x.modified ≤ b.modified := by
        by_contra hlt
        exact hcond (Or.inl (lt_of_not_le hlt))
      refine ⟨r, hr, hrk, hbr, ?_⟩
      intro y hy
      rcases List.mem_cons.mp hy with rfl | hy2
      · exact le_trans hxb hbr
      · exact hall y hy2

theorem pickFold_stay (k : String) (l : List Rec) (b : Rec)
    (hl : ∀ x ∈ l, x.pk = k) (hb : b.pk = k)
    (hle : ∀ x ∈ l, x.modified ≤ b.modified) :
    l.foldl pickStep (some b) = some b := by
  induction l with
  | nil => rfl
  | cons x xs ih =>
    have hx : x.pk = k := hl x (List.mem_cons_self x xs)
    have hxb : x.modified ≤ b.modified := hle x (List.mem_cons_self x xs)
    simp only [List.foldl_cons, pickStep]
    rw [if_neg ?_]
    · exact ih (fun y hy => hl y (List.mem_cons_of_mem x hy))
        (fun y hy => hle y (List.mem_cons_of_mem x hy))
    · rintro (h | ⟨h1, h2⟩)
      · exact absurd h (not_lt_of_le hxb)
      · rw [hb, hx] at h2
        exact lt_irrefl _ h2

theorem pickBest_max (k : String) (m : List Rec) (r : Rec)
    (hm : ∀ x ∈ m, x.pk = k) (h : pickBest m = some r) :
    ∀ x ∈ m, x.modified ≤ r.modified := by
  cases m with
  | nil => cases h
  | cons x xs =>
    have hx : x.pk = k := hm x (List.mem_cons_self x xs)
    have hxs : ∀ y ∈ xs, y.pk = k := fun y hy => hm y (List.mem_cons_of_mem x hy)
    obtain ⟨r2, hr2, _, hbr, hall⟩ := pickFold_bound k xs x hxs hx
    have : pickBest (x :: xs) = some r2 := by
      simpa [pickBest, pickStep] using hr2
    rw [h] at this
    cases this
    intro y hy
    rcases List.mem_cons.mp hy with rfl | hy2
    · exact hbr
    · exact hall y hy2

theorem pickBest_keep (k : String) (m : List Rec) (r : Rec) (ex : List Rec)
    (hm : ∀ x ∈ m, x.pk = k) (h : pickBest m = some r)
    (hex : ∀ x ∈ ex, x ∈ m) : pickBest (r :: ex) = some r := by
  have hrm : r ∈ m := pickBest_chooserOk.1 m r h
  have hrk : r.pk = k := hm r hrm
  have hmax := pickBest_max k m r hm h
  have : ex.foldl pickStep (some r) = some r :=
    pickFold_stay k ex r (fun x hx => hm x (hex x hx)) hrk
      (fun x hx => hmax x (hex x hx))
  simpa [pickBest, pickStep] using this

theorem topFold_mem (key : DealRow → Int) (l : List DealRow)
    (acc : Option DealRow) (r : DealRow)
    (h : l.foldl (topStep key) acc = some r) : acc = some r ∨ r ∈ l := by
  induction l generalizing acc with
  | nil => exact Or.inl h
  | cons x xs ih =>
    simp only [List.foldl_cons] at h
    rcases ih (topStep key acc x) h with h2 | h2
    · cases acc with
      | none =>
        simp only [topStep] at h2
        cases h2
        exact Or.inr (List.mem_cons_self _ _)
      | some b =>
        simp only [topStep] at h2
        split at h2
        · cases h2; exact Or.inr (List.mem_cons_self _ _)
        · exact Or.inl h2
    · exact Or.inr (List.mem_cons_of_mem x h2)

theorem topFold_isSome (key : DealRow → Int) (l : List DealRow) (b : DealRow) :
    (l.foldl (topStep key) (some b)).isSome := by
  induction l generalizing b with
  | nil => rfl
  | cons x xs ih =>
    simp only [List.foldl_cons, topStep]
    split
    · exact ih x
    · exact ih b

theorem pickTop_chooserOk (key : DealRow → Int) :
    ChooserOk (α := DealRow) (pickTop key) := by
  constructor
  · intro m r h
    rcases topFold_mem key m none r h with h2 | h2
    · cases h2
    · exact h2
  · intro x m
    simp only [pickTop, List.foldl_cons, topStep]
    exact topFold_isSome key m x

theorem topFold_bound (key : DealRow → Int) (l : List DealRow) (b : DealRow) :
    ∃ r, l.foldl (topStep key) (some b) = some r ∧ key b ≤ key r ∧
      ∀ x ∈ l, key x ≤ key r := by
  induction l generalizing b with
  | nil => exact ⟨b, rfl, le_refl _, by simp⟩
  | cons x xs ih =>
    simp only [List.foldl_cons, topStep]
    split
    case isTrue hcond =>
      obtain ⟨r, hr, hbr, hall⟩ := ih x
      refine ⟨r, hr, le_trans (le_of_lt hcond) hbr, ?_⟩
      intro y hy
      rcases List.mem_cons.mp hy with rfl | hy2
      · exact hbr
      · exact hall y hy2
    case isFalse hcond =>
      obtain ⟨r, hr, hbr, hall⟩ := ih b
      refine ⟨r, hr, hbr, ?_⟩
      intro y hy
      rcases List.mem_cons.mp hy with rfl | hy2
      · exact le_trans (le_of_not_lt hcond) hbr
      · exact hall y hy2

theorem topFold_stay (key : DealRow → Int) (l : List DealRow) (b : DealRow)
    (hle : ∀ x ∈ l, key x ≤ key b) :
    l.foldl (topStep key) (some b) = some b := by
  induction l with
  | nil => rfl
  | cons x xs ih =>
    simp only [List.foldl_cons, topStep]
    rw [if_neg (not_lt_of_le (hle x (List.mem_cons_self x xs)))]
    exact ih fun y hy => hle y (List.mem_cons_of_mem x hy)

theorem pickTop_max (key : DealRow → Int) (m : List DealRow) (r : DealRow)
    (h : pickTop key m = some r) : ∀ x ∈ m, key x ≤ key r := by
  cases m with
  | nil => cases h
  | cons x xs =>
    obtain ⟨r2, hr2, hbr, hall⟩ := topFold_bound key xs x
    have : pickTop key (x :: xs) = some r2 := by
      simpa [pickTop, topStep] using hr2
    rw [h] at this
    cases this
    intro y hy
    rcases List.mem_cons.mp hy with rfl | hy2
    · exact hbr
    · exact hall y hy2

theorem pickTop_keep (key : DealRow → Int) (m : List DealRow) (r : DealRow)
    (ex : List DealRow) (h : pickTop key m = some r)
    (hex : ∀ x ∈ ex, x ∈ m) : pickTop key (r :: ex) = some r := by
  have hmax := pickTop_max key m r h
  have : ex.foldl (topStep key) (some r) = some r :=
    topFold_stay key ex r fun x hx => hmax x (hex x hx)
  simpa [pickTop, topStep] using this

theorem topFold_congr (k1 k2 : DealRow → Int) (l : List DealRow)
    (acc : Option DealRow) (hl : ∀ x ∈ l, k1 x = k2 x)
    (hacc : ∀ b, acc = some b → k1 b = k2 b) :
    l.foldl (topStep k1) acc = l.foldl (topStep k2) acc := by
  induction l generalizing acc with
  | nil => rfl
  | cons x xs ih =>
    have hx : k1 x = k2 x := hl x (List.mem_cons_self x xs)
    have hstep : topStep k1 acc x = topStep k2 acc x := by
      cases acc with
      | none => rfl
      | some b => simp only [topStep, hacc b rfl, hx]
    simp only [List.foldl_cons, hstep]
    refine ih _ (fun y hy => hl y (List.mem_cons_of_mem x hy)) ?_
    intro b hb
    cases acc with
    | none =>
      simp only [topStep] at hb
      cases hb
      exact hx
    | some c =>
      simp only [topStep] at hb
      split at hb
      · cases hb; exact hx
      · cases hb; exact hacc _ rfl

theorem pickTop_congr (k1 k2 : DealRow → Int) (l : List DealRow)
    (hl : ∀ x ∈ l, k1 x = k2 x) : pickTop k1 l = pickTop k2 l :=
  topFold_congr k1 k2 l none hl (by intro b hb; cases hb)

theorem skeleton_stages (t ed : Option String) (es : Option Bool)
    (nl nw : Bool) (cs : Option String) :
    categorySkeleton t ed es nl nw cs =
      (((explicitTypeRule t ed es).orElse
          fun _ => if upperEq t "NOTE" then some (noteResult nl nw) else none).orElse
        fun _ => sourceRule cs).getD (rawTypeFallback t) := by
  unfold categorySkeleton explicitTypeRule sourceRule rawTypeFallback
  by_cases h1 : upperEq t "CALL" = true
  · simp [h1]
  by_cases h2 : upperMem t ["EMAIL", "EMAIL_SENT", "OUTBOUND_EMAIL", "FORWARDED_EMAIL"] = true
  · simp [h1, h2]
  by_cases h3 : upperEq t "INCOMING_EMAIL" = true
  · simp [h1, h2, h3]
  by_cases h4 : upperMem t ["LINKEDIN_MESSAGE", "LINKEDIN"] = true
  · simp [h1, h2, h3, h4]
  by_cases h5 : upperMem t ["SMS", "TEXT", "TEXT_MESSAGE"] = true
  · simp [h1, h2, h3, h4, h5]
  by_cases h6 : upperMem t ["WHATS_APP", "WHATSAPP", "WHATS-APP", "WHATS APP"] = true
  · simp [h1, h2, h3, h4, h5, h6]
  by_cases h7 : upperEq t "MEETING" = true
  · simp [h1, h2, h3, h4, h5, h6, h7]
  by_cases h8 : upperEq t "TASK" = true
  · simp [h1, h2, h3, h4, h5, h6, h7, h8]
  by_cases h9 : upperEq t "NOTE" = true
  · simp [h1, h2, h3, h4, h5, h6, h7, h8, h9]
  by_cases s1 : likeKw cs "linkedin" = true
  · simp [h1, h2, h3, h4, h5, h6, h7, h8, h9, s1]
  by_cases s2 : likeKw cs "whatsapp" = true
  · simp [h1, h2, h3, h4, h5, h6, h7, h8, h9, s1, s2]
  · simp [h1, h2, h3, h4, h5, h6, h7, h8, h9, s1, s2]

theorem content_excludes_explicit (t ns nb cb ed : Option String)
    (es : Option Bool) :
    contentRule t ns nb cb = none ∨ explicitTypeRule t ed es = none := by
  unfold contentRule explicitTypeRule
  match t with
  | none => left; rfl
  | some x =>
    by_cases h : upperCodes x = codes "NOTE"
    · right
      simp +decide [upperEq, upperMem, h]
    · left
      simp [upperEq, h]

theorem content_dr_excludes_explicit (t ns nb cb ed : Option String)
    (es : Option Bool) :
    contentRuleDr t ns nb cb = none ∨ explicitTypeRule t ed es = none := by
  unfold contentRuleDr explicitTypeRule
  match t with
  | none => left; rfl
  | some x =>
    by_cases h : upperCodes x = codes "NOTE"
    · right
      simp +decide [upperEq, upperMem, h]
    · left
      simp [upperEq, h]

/-- Claim C3 (confirmed): in both activity views, the classification CASE is
exactly the staged precedence: explicit type-code rules (call, the email
family, incoming email, LinkedIn, SMS, WhatsApp, meeting, task) decided
first, then the content-based keyword heuristic over note / communication
body text, then the communication-source heuristic, then the raw type
string fallback; and the content stage can only fire on rows with no
explicit type-code match. -/
theorem activity_classification_precedence :
    (∀ a : ActivityRow,
      activity_category a =
        (((explicitTypeRule a.activity_type a.email_direction a.email_sent).orElse
            fun _ => contentRule a.activity_type a.note_subject a.note_body
              a.communication_body).orElse
          fun _ => sourceRule a.communication_source).getD
          (rawTypeFallback a.activity_type) ∧
      activity_category_dr a =
        (((explicitTypeRule a.activity_type a.email_direction a.email_sent).orElse
            fun _ => contentRuleDr a.activity_type a.note_subject a.note_body
              a.communication_body).orElse
          fun _ => sourceRule a.communication_source).getD
          (rawTypeFallback a.activity_type)) ∧
    (∀ (t ns nb cb ed : Option String) (es : Option Bool),
      contentRule t ns nb cb = none ∨ explicitTypeRule t ed es = none) ∧
    (∀ (t ns nb cb ed : Option String) (es : Option Bool),
      contentRuleDr t ns nb cb = none ∨ explicitTypeRule t ed es = none) := by
  refine ⟨fun a => ⟨?_, ?_⟩, content_excludes_explicit, content_dr_excludes_explicit⟩
  · exact skeleton_stages a.activity_type a.email_direction a.email_sent
      (likeKw a.note_subject "linkedin" || likeKw a.note_body "linkedin" ||
        likeKw a.communication_body "linkedin")
      (likeKw a.note_subject "whatsapp" || likeKw a.note_body "whatsapp" ||
        likeKw a.communication_body "whatsapp")
      a.communication_source
  · exact skeleton_stages a.activity_type a.email_direction a.email_sent
      (noteBlobLike a.note_subject a.note_body a.communication_body "linkedin")
      (noteBlobLike a.note_subject a.note_body a.communication_body "whatsapp")
      a.communication_source

/-- Claim C4 (code bug): the date-range view classifies a NOTE whose
`note_subject` mentions LinkedIn as plain "Note" whenever `note_body` or
`communication_body` is NULL, because its non-COALESCEd concatenation lets
NULL poison the keyword test; the v2 view, which COALESCEs each field
separately, classifies the same row "LinkedIn Message" as the spec
requires. -/
theorem null_note_body_poisons_date_range_view :
    activity_category_dr nullNoteRow = "Note" ∧
      activity_category nullNoteRow = "LinkedIn Message" ∧
      likeKw nullNoteRow.note_subject "linkedin" = true := by
  refine ⟨by decide, by decide, by decide⟩

/-- Claim C1 (counterexample): on the two-row table `dealTbl`,
`deals_latest` keeps `dealA`, which is strictly older by last-modified than
the discarded row `dealB` sharing its `deal_id` — so the view does not
select the row latest by last-modified. -/
theorem deals_latest_not_by_last_modified :
    deals_latest dealTbl = [dealA] ∧
      dealA.last_modified_at.getD dealA.created_at <
        dealB.last_modified_at.getD dealB.created_at ∧
      dealB ∈ dealTbl ∧ dealB.deal_id = dealA.deal_id ∧ dealA ≠ dealB := by
  refine ⟨by decide, by decide, by decide, by decide, by decide⟩

/-- Claim C1 (amended): merge-dedup keeps, per primary key, exactly one
row — one of the input rows, carrying the latest last-modified value among
its key group, with every input key represented; the `deals_latest` view
keeps per `deal_id` exactly one table row, the one latest by `created_at`
(not last-modified; an exact tie keeps the earlier row, since rows sharing
a primary key cannot be separated by primary-key order). -/
theorem merge_dedup_keeps_latest_per_key :
    (∀ E R : List Rec,
      (List.map Rec.pk (mergeDedup E R)).Nodup ∧
      (∀ r ∈ mergeDedup E R, r ∈ E ++ R ∧
        ∀ s ∈ E ++ R, s.pk = r.pk → s.modified ≤ r.modified) ∧
      (∀ s ∈ E ++ R, ∃ r ∈ mergeDedup E R, r.pk = s.pk)) ∧
    (∀ tbl : List DealRow,
      (List.map DealRow.deal_id (deals_latest tbl)).Nodup ∧
      (∀ r ∈ deals_latest tbl, r ∈ tbl ∧
        ∀ s ∈ tbl, s.deal_id = r.deal_id → s.created_at ≤ r.created_at) ∧
      (∀ s ∈ tbl, ∃ r ∈ deals_latest tbl, r.deal_id = s.deal_id)) := by
  constructor
  · intro E R
    refine ⟨?_, ?_, ?_⟩
    · unfold mergeDedup
      rw [map_f_dedup Rec.pk pickBest pickBest_chooserOk]
      exact keyList_nodup Rec.pk (E ++ R)
    · intro r hr
      refine ⟨dedup_mem_sub Rec.pk pickBest pickBest_chooserOk _ r hr, ?_⟩
      intro s hs hsk
      have hpicks := dedup_picks Rec.pk pickBest pickBest_chooserOk _ r hr
      have hsmem : s ∈ rowsBy Rec.pk r.pk (E ++ R) :=
        (mem_rowsBy Rec.pk r.pk (E ++ R) s).mpr ⟨hs, hsk⟩
      exact pickBest_max r.pk _ r
        (fun x hx => ((mem_rowsBy Rec.pk r.pk (E ++ R) x).mp hx).2) hpicks s hsmem
    · intro s hs
      obtain ⟨r, hr, hrk⟩ :=
        dedup_covers Rec.pk pickBest pickBest_chooserOk (E ++ R) s hs
      exact ⟨r, hr, hrk⟩
  · intro tbl
    refine ⟨?_, ?_, ?_⟩
    · unfold deals_latest
      rw [map_f_dedup DealRow.deal_id _ (pickTop_chooserOk fun r => r.created_at)]
      exact keyList_nodup DealRow.deal_id tbl
    · intro r hr
      refine ⟨dedup_mem_sub DealRow.deal_id _
        (pickTop_chooserOk fun r => r.created_at) _ r hr, ?_⟩
      intro s hs hsk
      have hpicks := dedup_picks DealRow.deal_id _
        (pickTop_chooserOk fun r => r.created_at) _ r hr
      have hsmem : s ∈ rowsBy DealRow.deal_id r.deal_id tbl :=
        (mem_rowsBy DealRow.deal_id r.deal_id tbl s).mpr ⟨hs, hsk⟩
      exact pickTop_max (fun r => r.created_at) _ r hpicks s hsmem
    · intro s hs
      obtain ⟨r, hr, hrk⟩ := dedup_covers DealRow.deal_id _
        (pickTop_chooserOk fun r => r.created_at) tbl s hs
      exact ⟨r, hr, hrk⟩

/-- Witness for the amended claim C1 at the concrete table `dealTbl`. -/
theorem merge_dedup_keeps_latest_per_key_witness :
    dealA ∈ dealTbl ∧
      ∃ r ∈ deals_latest dealTbl, r.deal_id = dealA.deal_id :=
  ⟨by decide, (merge_dedup_keeps_latest_per_key.2 dealTbl).2.2 dealA (by decide)⟩

/-- Claim C9 (counterexample): the two `deals_latest` definitions select
different rows on the concrete table `dealTbl`, so they are not
equivalent. -/
theorem deals_latest_views_differ :
    deals_latest dealTbl = [dealA] ∧ deals_latest_alt dealTbl = [dealB] ∧
      dealA ≠ dealB := by
  refine ⟨by decide, by decide, by decide⟩

/-- Claim C9 (amended): the two `deals_latest` definitions are not
equivalent in general; they do select the same row per `deal_id` on every
deals table in which no row carries a `last_modified_at` (there
`COALESCE(last_modified_at, created_at)` degenerates to `created_at`). -/
theorem deals_latest_views_agree_on_null_modified :
    ∀ tbl : List DealRow, (∀ r ∈ tbl, r.last_modified_at = none) →
      deals_latest tbl = deals_latest_alt tbl := by
  intro tbl h
  unfold deals_latest deals_latest_alt dedupByKey
  refine filterMap_congr_on _ _ _ ?_
  intro k hk
  refine pickTop_congr _ _ _ ?_
  intro x hx
  have hxt : x ∈ tbl := ((mem_rowsBy DealRow.deal_id k tbl x).mp hx).1
  rw [h x hxt]
  rfl

/-- Witness for the amended claim C9 at the one-row table `[dealC]`. -/
theorem deals_latest_views_agree_witness :
    deals_latest [dealC] = deals_latest_alt [dealC] :=
  deals_latest_views_agree_on_null_modified [dealC] (by decide)

/-- Claim C2 (confirmed): the merge-dedup write is idempotent — running the
ingestion-and-merge write a second time over identical incoming rows leaves
every partition exactly as after the first run. -/
theorem write_with_merge_idempotent :
    ∀ (store : String → List Rec) (rows : List Rec) (d : String),
      writeWithMerge (writeWithMerge store rows) rows d =
        writeWithMerge store rows d := by
  intro store rows d
  unfold writeWithMerge
  by_cases h : (rows.filter fun r => r.dt == d).isEmpty
  · simp only [h, if_pos]
  · simp only [h, if_neg, Bool.not_eq_true]
    unfold mergeDedup
    exact dedup_stable Rec.pk pickBest pickBest_chooserOk pickBest_keep
      (store d ++ rows.filter fun r => r.dt == d)
      (rows.filter fun r => r.dt == d)
      (fun x hx => List.mem_append.mpr (Or.inr hx))

/-- Claim C5 (confirmed): with a watermark the fetch window is exactly
`[max(last_created_at, last_modified_at) - overlap, now]` with the default
2-hour overlap; without one it is `[configured_start, now]`; and the spec
scenario holds: a watermark modified at 2025-06-01T00:00:00Z yields window
start 2025-05-31T22:00:00Z. -/
theorem get_window_spec :
    (∀ (w : Watermark) (cs now : Int),
      getWindow (some w) cs now =
        { fromTs := max w.last_created_at w.last_modified_at -
            overlapBufferSeconds, toTs := now }) ∧
    overlapBufferSeconds = 7200 ∧
    (∀ cs now : Int, getWindow none cs now = { fromTs := cs, toTs := now }) ∧
    epochSeconds 2025 6 1 0 = 1748736000 ∧
    epochSeconds 2025 5 31 22 = 1748728800 ∧
    getWindow (some scenarioWm) 0 (epochSeconds 2025 6 2 0) =
      { fromTs := epochSeconds 2025 5 31 22, toTs := epochSeconds 2025 6 2 0 } := by
  refine ⟨fun w cs now => rfl, by decide, fun cs now => rfl, by decide, by decide, ?_⟩
  show FetchWindow.mk _ _ = _
  rw [FetchWindow.mk.injEq]
  exact ⟨by decide, rfl⟩

/-- Claim C6 (confirmed): a failed run leaves the watermark unchanged; a
successful run commits a watermark pointwise at or above the previous one;
and the stored watermark is only ever the old record or the single
atomically committed replacement, never a partial mix. -/
theorem watermark_monotone_and_atomic :
    ∀ (wm : Option Watermark) (cs : Int) (inp : RunInput),
      ((runIngestion wm cs inp).2.2 = RunResult.failure →
        (runIngestion wm cs inp).2.1 = wm) ∧
      (∀ w w2, wm = some w → (runIngestion wm cs inp).2.2 = RunResult.success →
        (runIngestion wm cs inp).2.1 = some w2 → wmLe w w2) ∧
      ((runIngestion wm cs inp).2.1 = wm ∨
        (runIngestion wm cs inp).2.1 = some (commitWatermark wm inp)) := by
  intro wm cs inp
  unfold runIngestion
  by_cases hw : inp.writerOk
  · by_cases hcm : inp.commitOk
    · refine ⟨?_, ?_, ?_⟩
      · intro hfail
        simp [hw, hcm] at hfail
      · intro w w2 hwm _ hcommit
        simp only [hw, hcm, if_pos] at hcommit
        subst hwm
        cases hcommit
        exact ⟨le_max_left _ _, le_max_left _ _, le_max_left _ _⟩
      · right
        simp [hw, hcm]
    · refine ⟨?_, ?_, ?_⟩
      · intro hfail
        simp [hw, hcm] at hfail
      · intro w w2 hwm _ hcommit
        simp only [hw, hcm, if_pos, if_neg, Bool.not_eq_true] at hcommit
        subst hwm
        cases hcommit
        exact ⟨le_refl _, le_refl _, le_refl _⟩
      · left
        simp [hw, hcm]
  · refine ⟨?_, ?_, ?_⟩
    · intro _
      simp [hw]
    · intro w w2 hwm hsucc
      simp [hw] at hsucc
    · left
      simp [hw]

/-- Witness for claim C6 at a concrete watermark and run input. -/
theorem watermark_monotone_witness :
    wmLe scenarioWm
      (commitWatermark (some scenarioWm)
        { readOk := true, writerOk := true, commitOk := true,
          observedMaxCreated := 10, observedMaxModified := 20,
          recordCount := 3, now := 30 }) := by
  have h := (watermark_monotone_and_atomic (some scenarioWm) 0
    { readOk := true, writerOk := true, commitOk := true,
      observedMaxCreated := 10, observedMaxModified := 20,
      recordCount := 3, now := 30 }).2.1 scenarioWm
    (commitWatermark (some scenarioWm)
      { readOk := true, writerOk := true, commitOk := true,
        observedMaxCreated := 10, observedMaxModified := 20,
        recordCount := 3, now := 30 }) rfl rfl rfl
  exact h

/-- Claim C7 (confirmed): a sync-state read error makes the run fall back
to the full `[configured_start, now]` window and still proceed; a
sync-state write error after a successful partition write does not stop
the run from reporting success. -/
theorem watermark_store_errors_nonfatal :
    ∀ (wm : Option Watermark) (cs : Int) (inp : RunInput),
      (inp.readOk = false →
        (runIngestion wm cs inp).1 =
          { fromTs := cs, toTs := inp.now }) ∧
      (inp.writerOk = true →
        (runIngestion wm cs inp).2.2 = RunResult.success) := by
  intro wm cs inp
  constructor
  · intro hread
    unfold runIngestion
    by_cases hw : inp.writerOk <;> simp [hw, hread, getWindow]
  · intro hw
    unfold runIngestion
    simp [hw]

/-- Witness for claim C7 at a concrete failing-read run input. -/
theorem watermark_store_errors_nonfatal_witness :
    (runIngestion (some scenarioWm) 0
      { readOk := false, writerOk := true, commitOk := false,
        observedMaxCreated := 0, observedMaxModified := 0,
        recordCount := 0, now := 99 }).1 = { fromTs := 0, toTs := 99 } :=
  (watermark_store_errors_nonfatal (some scenarioWm) 0
    { readOk := false, writerOk := true, commitOk := false,
      observedMaxCreated := 0, observedMaxModified := 0,
      recordCount := 0, now := 99 }).1 rfl

/-- Claim C8 (confirmed): backoff delays are 1s, 2s, 4s, ... capped at 30s
with a retry budget of 5; three 429 responses followed by success wait
exactly 1s + 2s + 4s plus jitter before succeeding; and exhausting every
retry propagates the failure with the partition store untouched. -/
theorem retry_backoff_policy :
    (delayForAttempt 0 = 1000 ∧ delayForAttempt 1 = 2000 ∧
      delayForAttempt 2 = 4000) ∧
    (∀ k, delayForAttempt k ≤ backoffCapMs) ∧
    maxRetryCount = 5 ∧
    (∀ jitter : Nat → Nat,
      (fetchWindowRun (fun k => decide (3 ≤ k)) jitter).2 = true ∧
      (fetchWindowRun (fun k => decide (3 ≤ k)) jitter).1 =
        7000 + jitter 0 + jitter 1 + jitter 2) ∧
    (∀ (jitter : Nat → Nat) (store : String → List Rec) (rows : List Rec),
      runFetchMerge (fun _ => false) jitter store rows =
        (store, RunResult.failure)) := by
  refine ⟨⟨by decide, by decide, by decide⟩, fun k => min_le_right _ _,
    rfl, fun jitter => ⟨rfl, ?_⟩, fun jitter store rows => rfl⟩
  show (1000 + jitter 0 + (2000 + jitter 1 + (4000 + jitter 2 + 0))) =
    7000 + jitter 0 + jitter 1 + jitter 2
  omega

/-- Claim C10 (confirmed): the incremental-sync toggle is deployed with the
string value "false", which parses to disabled, so every entity type takes
the full-sync `overwrite_partitions` write path until an operator changes
the parameter. -/
theorem incremental_sync_disabled_by_default :
    incrementalSyncParameter.stringValue = "false" ∧
    incrementalSyncParameter.parameterName =
      "/hubspot-analytics/incremental-sync-enabled" ∧
    parseSyncFlag incrementalSyncParameter.stringValue = false ∧
    ∀ (et : EntityType) (wm : Option Watermark),
      writeStrategy (parseSyncFlag incrementalSyncParameter.stringValue) et wm =
        WriteMode.overwritePartitions := by
  exact ⟨rfl, rfl, by decide, fun et wm => rfl⟩
